import Mathlib

/-!
Verification of the selective-search region-proposal engine
(`src/selectivesearch/selectivesearch.py`) against its specification.

Shallow embedding conventions:
* Python floats are modelled as rationals (`ℚ`); pixel coordinates as `ℤ`;
  pixel counts as `ℕ`.
* Python dicts whose insertion order is observable (the region table `R`
  and the similarity map `S`) are modelled as association lists in
  insertion order, with dict assignment `dinsert` (overwrite in place if
  the key is present, append otherwise).
* `skimage` collaborators (`felzenszwalb` segmentation inside
  `_generate_segments`, `local_binary_pattern` inside
  `_calc_texture_gradient`, `rgb2hsv`) are external per the spec; the
  pipeline is modelled from the post-extraction region table onward, which
  is supplied as an input.  The dead `if img is None` branch of
  `selective_search` is unreachable (its callee never returns `None`) and
  is not modelled.
* `numpy.histogram(xs, B, (lo, hi))` counts each value `v` with
  `lo ≤ v ≤ hi` into bin `min ⌊(v - lo) * B / (hi - lo)⌋ (B - 1)` and
  ignores out-of-range values.
-/

/-- A region record as kept in the table after `_expand_regions`
(fields `min_x … labels, bbox_size` of the Python dict). -/
structure Region where
  min_x : ℤ
  min_y : ℤ
  max_x : ℤ
  max_y : ℤ
  og_min_x : ℤ
  og_min_y : ℤ
  og_max_x : ℤ
  og_max_y : ℤ
  size : ℕ
  hist_c : List ℚ
  hist_t : List ℚ
  labels : List ℕ
  bbox_size : ℤ
  deriving DecidableEq, Repr

instance : Inhabited Region :=
  ⟨⟨0, 0, 0, 0, 0, 0, 0, 0, 0, [], [], [], 0⟩⟩

/-- A region record as produced by `_extract_regions`, before
`_expand_regions` (no `og_*` fields yet). -/
structure RawRegion where
  min_x : ℤ
  min_y : ℤ
  max_x : ℤ
  max_y : ℤ
  size : ℕ
  hist_c : List ℚ
  hist_t : List ℚ
  labels : List ℕ
  bbox_size : ℤ
  deriving DecidableEq, Repr

/-- One record of the final `regions` list of `selective_search`
(lines 378-385): `rect = (min_x, min_y, max_x - min_x, max_y - min_y)`
plus `bbox_size`, `size` and `labels`. -/
structure Proposal where
  rect : ℤ × ℤ × ℤ × ℤ
  bbox_size : ℤ
  size : ℕ
  labels : List ℕ
  deriving DecidableEq, Repr

/-- Python dict assignment `d[k] = v` on an insertion-ordered association
list: overwrite in place when the key is present, append otherwise. -/
def dinsert {α β : Type} [DecidableEq α] (l : List (α × β)) (k : α) (v : β) :
    List (α × β) :=
  if l.any (fun e => decide (e.1 = k)) then
    l.map (fun e => if e.1 = k then (k, v) else e)
  else l ++ [(k, v)]

/-- `max(R.keys())` (`0` for the empty table, which the source never
queries). -/
def maxKey (l : List (ℕ × Region)) : ℕ :=
  l.foldl (fun m e => max m e.1) 0

/-- `R[k]` on the region table; the merge loop only ever looks up keys that
are present, so the default value is never produced in a real run. -/
def rlookup (l : List (ℕ × Region)) (k : ℕ) : Region :=
  (l.lookup k).getD default

/-! ### Histogram builder (`_calc_colour_hist`, `_calc_texture_hist`) -/

/-- Bin index of value `v` for `numpy.histogram(_, B, (lo, hi))`:
`none` when `v` is outside `[lo, hi]`, otherwise
`min ⌊(v - lo) * B / (hi - lo)⌋ (B - 1)` (the top edge closes the last
bin). -/
def binIndex (B : ℕ) (lo hi v : ℚ) : Option ℕ :=
  if lo ≤ v ∧ v ≤ hi then
    some (min (((v - lo) * B / (hi - lo)).floor.toNat) (B - 1))
  else none

/-- Increment slot `i` of a count vector. -/
def bump (h : List ℕ) (i : ℕ) : List ℕ :=
  h.set i (h.getD i 0 + 1)

/-- `numpy.histogram(vals, B, (lo, hi))[0]`: per-bin counts. -/
def histogram (vals : List ℚ) (B : ℕ) (lo hi : ℚ) : List ℕ :=
  vals.foldl
    (fun h v =>
      match binIndex B lo hi v with
      | some i => bump h i
      | none => h)
    (List.replicate B 0)

/-- `lo ≤ v ≤ hi`, the in-range test of `numpy.histogram`. -/
def inRange (lo hi v : ℚ) : Bool :=
  decide (lo ≤ v) && decide (v ≤ hi)

/-- `_calc_colour_hist`: 25 bins per channel over `(0.0, 255.0)`, the three
channel histograms concatenated and the whole vector divided by the sample
pixel count. -/
def calcColourHist (pixels : List (ℚ × ℚ × ℚ)) : List ℚ :=
  let n : ℚ := (pixels.length : ℚ)
  ((histogram (pixels.map (fun p => p.1)) 25 0 255
      ++ histogram (pixels.map (fun p => p.2.1)) 25 0 255)
      ++ histogram (pixels.map (fun p => p.2.2)) 25 0 255).map
    (fun (k : ℕ) => (k : ℚ) / n)

/-- `_calc_texture_hist`: 10 bins per channel over `(0.0, 1.0)`, same
concatenation and normalization as the colour histogram. -/
def calcTextureHist (pixels : List (ℚ × ℚ × ℚ)) : List ℚ :=
  let n : ℚ := (pixels.length : ℚ)
  ((histogram (pixels.map (fun p => p.1)) 10 0 1
      ++ histogram (pixels.map (fun p => p.2.1)) 10 0 1)
      ++ histogram (pixels.map (fun p => p.2.2)) 10 0 1).map
    (fun (k : ℕ) => (k : ℚ) / n)

/-! Histogram helper lemmas. -/

theorem bump_length (h : List ℕ) (i : ℕ) : (bump h i).length = h.length := by
  simp [bump]

theorem bump_sum (h : List ℕ) (i : ℕ) (hi : i < h.length) :
    (bump h i).sum = h.sum + 1 := by
  induction h generalizing i with
  | nil => simp at hi
  | cons a t ih =>
    cases i with
    | zero =>
      simp only [bump, List.getD, List.get?_cons_zero, Option.getD_some,
        List.set_cons_zero, List.sum_cons]
      omega
    | succ j =>
      have hj : j < t.length := by simpa using hi
      have : bump (a :: t) (j + 1) = a :: bump t j := by
        simp [bump, List.getD]
      rw [this, List.sum_cons, List.sum_cons, ih j hj, Nat.add_assoc]

theorem binIndex_lt (B : ℕ) (hB : 0 < B) (lo hi v : ℚ) (i : ℕ)
    (h : binIndex B lo hi v = some i) : i < B := by
  unfold binIndex at h
  split at h
  · have : i = min (((v - lo) * B / (hi - lo)).floor.toNat) (B - 1) := by
      simpa using h.symm
    calc i ≤ B - 1 := this ▸ Nat.min_le_right _ _
      _ < B := Nat.sub_lt hB Nat.one_pos
  · exact absurd h (by simp)

theorem binIndex_none (B : ℕ) (lo hi v : ℚ)
    (h : inRange lo hi v = false) : binIndex B lo hi v = none := by
  unfold binIndex
  rw [if_neg]
  intro hc
  simp [inRange, hc.1, hc.2] at h

theorem binIndex_isSome (B : ℕ) (lo hi v : ℚ)
    (h : inRange lo hi v = true) : ∃ i, binIndex B lo hi v = some i := by
  refine ⟨min (((v - lo) * B / (hi - lo)).floor.toNat) (B - 1), ?_⟩
  unfold binIndex
  rw [if_pos]
  constructor
  · exact of_decide_eq_true (Bool.and_elim_left h)
  · exact of_decide_eq_true (Bool.and_elim_right h)

theorem histogram_fold_spec (B : ℕ) (hB : 0 < B) (lo hi : ℚ)
    (vals : List ℚ) :
    ∀ acc : List ℕ, acc.length = B →
      ((vals.foldl
          (fun h v =>
            match binIndex B lo hi v with
            | some i => bump h i
            | none => h) acc).length = B
        ∧ (vals.foldl
            (fun h v =>
              match binIndex B lo hi v with
              | some i => bump h i
              | none => h) acc).sum
          = acc.sum + (vals.filter (inRange lo hi)).length) := by
  induction vals with
  | nil => intro acc hacc; simp [hacc]
  | cons v vs ih =>
    intro acc hacc
    by_cases hv : inRange lo hi v = true
    · obtain ⟨i, hbin⟩ := binIndex_isSome B lo hi v hv
      have hlt : i < acc.length := hacc ▸ binIndex_lt B hB lo hi v i hbin
      have h1 : (bump acc i).length = B := by rw [bump_length, hacc]
      obtain ⟨hl, hs⟩ := ih (bump acc i) h1
      refine ⟨by simpa [hbin] using hl, ?_⟩
      have hf : (v :: vs).filter (inRange lo hi) = v :: vs.filter (inRange lo hi) :=
        List.filter_cons_of_pos hv
      simp only [List.foldl_cons, hbin]
      rw [hs, bump_sum acc i hlt, hf]
      simp only [List.length_cons]
      omega
    · have hv' : inRange lo hi v = false := by
        simpa using hv
      have hnone := binIndex_none B lo hi v hv'
      obtain ⟨hl, hs⟩ := ih acc hacc
      have hf : (v :: vs).filter (inRange lo hi) = vs.filter (inRange lo hi) :=
        List.filter_cons_of_neg (by simp [hv'])
      refine ⟨by simpa [hnone] using hl, ?_⟩
      simp only [List.foldl_cons, hnone]
      rw [hs, hf]

theorem histogram_length (vals : List ℚ) (B : ℕ) (hB : 0 < B) (lo hi : ℚ) :
    (histogram vals B lo hi).length = B :=
  (histogram_fold_spec B hB lo hi vals (List.replicate B 0)
    (List.length_replicate B 0)).1

theorem histogram_sum (vals : List ℚ) (B : ℕ) (hB : 0 < B) (lo hi : ℚ) :
    (histogram vals B lo hi).sum = (vals.filter (inRange lo hi)).length := by
  have := (histogram_fold_spec B hB lo hi vals (List.replicate B 0)
    (List.length_replicate B 0)).2
  simpa [histogram] using this

theorem sum_map_div (l : List ℕ) (n : ℚ) :
    (l.map (fun (k : ℕ) => (k : ℚ) / n)).sum = ((l.sum : ℕ) : ℚ) / n := by
  induction l with
  | nil => simp
  | cons a t ih =>
    rw [List.map_cons, List.sum_cons, List.sum_cons, ih, Nat.cast_add, add_div]

/-! ### Similarity model (`_sim_colour`, `_sim_texture`, `_sim_size`,
`_sim_fill`, `_calc_sim`) -/

/-- `_sim_colour`: histogram intersection over `hist_c`. -/
def simColour (r1 r2 : Region) : ℚ :=
  (List.zipWith min r1.hist_c r2.hist_c).sum

/-- `_sim_texture`: histogram intersection over `hist_t`. -/
def simTexture (r1 r2 : Region) : ℚ :=
  (List.zipWith min r1.hist_t r2.hist_t).sum

/-- `_sim_size`. -/
def simSize (r1 r2 : Region) (imsize : ℚ) : ℚ :=
  1 - ((r1.size : ℚ) + (r2.size : ℚ)) / imsize

/-- `_sim_fill`. -/
def simFill (r1 r2 : Region) (imsize : ℚ) : ℚ :=
  1 - ((((max r1.max_x r2.max_x - min r1.min_x r2.min_x)
          * (max r1.max_y r2.max_y - min r1.min_y r2.min_y) : ℤ) : ℚ)
        - (r1.size : ℚ) - (r2.size : ℚ)) / imsize

/-- `_calc_sim`: the four terms summed unweighted. -/
def calcSim (r1 r2 : Region) (imsize : ℚ) : ℚ :=
  simColour r1 r2 + simTexture r1 r2 + simSize r1 r2 imsize
    + simFill r1 r2 imsize

/-! ### Neighbour graph (`_extract_neighbours`) -/

/-- The `intersect(a, b)` test of `_extract_neighbours`: true when one of
the four corners of `b`'s bbox lies strictly inside `a`'s bbox. -/
def intersect (a b : Region) : Bool :=
  decide ((a.min_x < b.min_x ∧ b.min_x < a.max_x
      ∧ a.min_y < b.min_y ∧ b.min_y < a.max_y)
    ∨ (a.min_x < b.max_x ∧ b.max_x < a.max_x
      ∧ a.min_y < b.max_y ∧ b.max_y < a.max_y)
    ∨ (a.min_x < b.min_x ∧ b.min_x < a.max_x
      ∧ a.min_y < b.max_y ∧ b.max_y < a.max_y)
    ∨ (a.min_x < b.max_x ∧ b.max_x < a.max_x
      ∧ a.min_y < b.min_y ∧ b.min_y < a.max_y))

/-- Ordered pairs `(R[cur], R[cur + 1 + cur2])` in the iteration order of
the double loop of `_extract_neighbours`. -/
def allPairs {α : Type} : List α → List (α × α)
  | [] => []
  | x :: xs => xs.map (fun y => (x, y)) ++ allPairs xs

/-- `_extract_neighbours` (the returned pair list; the diagnostic
`neighbours_mask` only feeds an internal assertion and is not part of the
observable state). -/
def extractNeighbours (R : List (ℕ × Region)) :
    List ((ℕ × Region) × (ℕ × Region)) :=
  (allPairs R).filter (fun p => intersect p.1.2 p.2.2)

/-! ### `_merge_regions` and `_expand_regions` -/

/-- `_merge_regions`: bbox union, `og_*` union, size sum, size-weighted
histogram average, label concatenation; `bbox_size` recomputed from the
merged bbox (line 249 of the source). -/
def mergeRegions (r1 r2 : Region) : Region :=
  let newSize := r1.size + r2.size
  { min_x := min r1.min_x r2.min_x
    min_y := min r1.min_y r2.min_y
    max_x := max r1.max_x r2.max_x
    max_y := max r1.max_y r2.max_y
    og_min_x := min r1.og_min_x r2.og_min_x
    og_min_y := min r1.og_min_y r2.og_min_y
    og_max_x := max r1.og_max_x r2.og_max_x
    og_max_y := max r1.og_max_y r2.og_max_y
    size := newSize
    hist_c := List.zipWith
      (fun a b => (a * (r1.size : ℚ) + b * (r2.size : ℚ)) / (newSize : ℚ))
      r1.hist_c r2.hist_c
    hist_t := List.zipWith
      (fun a b => (a * (r1.size : ℚ) + b * (r2.size : ℚ)) / (newSize : ℚ))
      r1.hist_t r2.hist_t
    labels := r1.labels ++ r2.labels
    bbox_size := (max r1.max_x r2.max_x - min r1.min_x r2.min_x)
      * (max r1.max_y r2.max_y - min r1.min_y r2.min_y) }

/-- The per-region body of `_expand_regions`: bbox grown by `border` and
clipped to `[0, x_lim] × [0, y_lim]`, `og_*` kept as the pre-expansion
bbox.  Note line 270 of the source computes `bbox_size` from the
PRE-expansion bbox (`r[1][...]`), not from the expanded one. -/
def expandRegion (border x_lim y_lim : ℤ) (r : RawRegion) : Region :=
  { min_x := max 0 (r.min_x - border)
    min_y := max 0 (r.min_y - border)
    max_x := min x_lim (r.max_x + border)
    max_y := min y_lim (r.max_y + border)
    og_min_x := r.min_x
    og_min_y := r.min_y
    og_max_x := r.max_x
    og_max_y := r.max_y
    size := r.size
    hist_c := r.hist_c
    hist_t := r.hist_t
    labels := r.labels
    bbox_size := (r.max_x - r.min_x) * (r.max_y - r.min_y) }

/-! ### Merge hierarchy bookkeeping, used to state the hierarchy-wide
claims about `_merge_regions` -/

/-- A merge tree: leaves are (expanded) extraction-time regions, inner
nodes are `_merge_regions` applications. -/
inductive MergeTree : Type
  | leaf : Region → MergeTree
  | node : MergeTree → MergeTree → MergeTree

/-- The region a merge tree evaluates to. -/
def regionOf : MergeTree → Region
  | MergeTree.leaf r => r
  | MergeTree.node a b => mergeRegions (regionOf a) (regionOf b)

/-- Sum of `size` over the original leaf regions of a merge tree. -/
def leafSizeSum : MergeTree → ℕ
  | MergeTree.leaf r => r.size
  | MergeTree.node a b => leafSizeSum a + leafSizeSum b

/-- A frontier (cut) of a merge tree: either the tree itself, or the
concatenation of frontiers of the two subtrees of a node. -/
inductive IsFrontier : MergeTree → List MergeTree → Prop
  | single (t : MergeTree) : IsFrontier t [t]
  | split {a b : MergeTree} {la lb : List MergeTree} :
      IsFrontier a la → IsFrontier b lb → IsFrontier (MergeTree.node a b) (la ++ lb)

/-- Subtree (ancestor/descendant) relation in a merge tree. -/
inductive IsSubtree : MergeTree → MergeTree → Prop
  | refl (t : MergeTree) : IsSubtree t t
  | left {s a : MergeTree} (b : MergeTree) :
      IsSubtree s a → IsSubtree s (MergeTree.node a b)
  | right (a : MergeTree) {s b : MergeTree} :
      IsSubtree s b → IsSubtree s (MergeTree.node a b)

/-! ### Merge engine state (`selective_search`, lines 304-401) -/

/-- Loop state of the hierarchical search: region table `R`, similarity
map `S` (both in dict insertion order), plus a ghost list `consumed`
recording, in order, the region keys used as merge inputs.  `consumed` is
not in the source — it never influences `R` or `S` — and exists only so
that claims about consumed regions can be stated. -/
structure SSState where
  R : List (ℕ × Region)
  S : List ((ℕ × ℕ) × ℚ)
  consumed : List ℕ
  deriving DecidableEq, Repr

/-- `sorted(S.items(), key=lambda i: i[1])[-1]` — the last element of a
stable ascending sort by score, i.e. the element of greatest score that
occurs last in insertion order.  Implemented as the equivalent single
left fold (replacing the current best on `≤` keeps the later of two
equal-scored entries, exactly as the stable sort does); the
characterization is proved in `selectBest_spec`.  The `[]` case is junk:
the loop guard `while S != {}` means the source never selects from an
empty map. -/
def selectBest (l : List ((ℕ × ℕ) × ℚ)) : (ℕ × ℕ) × ℚ :=
  match l with
  | [] => ((0, 0), 0)
  | e :: rest => rest.foldl (fun acc x => if acc.2 ≤ x.2 then x else acc) e

/-- Python `(i in k) or (j in k)` for a key tuple `k`. -/
def touches (i j : ℕ) (k : ℕ × ℕ) : Bool :=
  decide (k.1 = i) || decide (k.2 = i) || decide (k.1 = j) || decide (k.2 = j)

/-- One iteration of the `while S != {}` loop (lines 346-371): select the
highest-scoring edge, merge its endpoints into a fresh key
`t = max(R.keys()) + 1`, drop every edge touching either endpoint, and —
unless the merged region's `bbox_size` exceeds `max_region_size` — insert
one edge from `t` to each former neighbour of the merged pair.  On an
empty `S` (loop guard false) the state is returned unchanged. -/
def step (imsize : ℚ) (mrs : ℤ) (st : SSState) : SSState :=
  if st.S.isEmpty then st
  else
    let i := (selectBest st.S).1.1
    let j := (selectBest st.S).1.2
    let t := maxKey st.R + 1
    let rt := mergeRegions (rlookup st.R i) (rlookup st.R j)
    let ktd := st.S.filter (fun e => touches i j e.1)
    let S1 := st.S.filter (fun e => !touches i j e.1)
    let R2 := dinsert st.R t rt
    let consumed2 := st.consumed ++ [i, j]
    if mrs < rt.bbox_size then
      ⟨R2, S1, consumed2⟩
    else
      ⟨R2,
        (ktd.filter (fun e => decide (e.1 ≠ (i, j)))).foldl
          (fun s e =>
            dinsert s (t, if e.1.1 = i ∨ e.1.1 = j then e.1.2 else e.1.1)
              (calcSim rt
                (rlookup R2 (if e.1.1 = i ∨ e.1.1 = j then e.1.2 else e.1.1))
                imsize))
          S1,
        consumed2⟩

/-- The whole `while S != {}` loop.  Each iteration strictly shrinks `S`
(`step_S_length_lt`), so iterating `step` `S.length` times reaches — and
then idles on — the empty similarity map (`runLoop_S_empty`). -/
def runLoop (imsize : ℚ) (mrs : ℤ) (st : SSState) : SSState :=
  (step imsize mrs)^[st.S.length] st

/-- One output record (lines 378-385). -/
def mkRecord (r : Region) : Proposal :=
  { rect := (r.min_x, r.min_y, r.max_x - r.min_x, r.max_y - r.min_y)
    bbox_size := r.bbox_size
    size := r.size
    labels := r.labels }

/-- The final `regions` list (lines 373-385): one record per table entry
whose key is not in `first_region_to_pop`, in table order. -/
def assemble (pop : List ℕ) (R : List (ℕ × Region)) : List Proposal :=
  R.filterMap (fun e => if e.1 ∈ pop then none else some (mkRecord e.2))

/-- The observable outputs of one `selective_search` run: the final region
table, the `first_region_to_pop` list, the ghost `consumed` list, the
`regions` proposal list and the (always empty — the producing block is
commented out) `og_regions` list. -/
structure SSOutput where
  table : List (ℕ × Region)
  pop : List ℕ
  consumed : List ℕ
  proposals : List Proposal
  og_regions : List Proposal
  deriving DecidableEq, Repr

/-- The body of `selective_search` after the channel assertion and the
external `_generate_segments` / `_extract_regions` collaborators: the
post-extraction region table `raw` (in dict order) is expanded and
re-keyed `0, 1, …` (`_expand_regions`), the neighbour edges are scored
into `S`, `region_pop` pre-pruning optionally removes edges of oversized
regions and flags them, the merge loop runs, and proposals are
assembled. -/
def ssRun (width height : ℕ) (raw : List RawRegion) (region_pop : Bool)
    (mrs border : ℤ) : SSOutput :=
  let imsize : ℚ := ((width * height : ℕ) : ℚ)
  let R0 : List (ℕ × Region) :=
    (raw.map (expandRegion border (width : ℤ) (height : ℤ))).enum
  let S0 : List ((ℕ × ℕ) × ℚ) :=
    (extractNeighbours R0).foldl
      (fun s p => dinsert s (p.1.1, p.2.1) (calcSim p.1.2 p.2.2 imsize)) []
  let pop : List ℕ :=
    if region_pop then
      (R0.filter (fun e => decide (mrs < e.2.bbox_size))).map (fun e => e.1)
    else []
  let S1 : List ((ℕ × ℕ) × ℚ) :=
    if region_pop then
      S0.filter (fun e => !(decide (e.1.1 ∈ pop) || decide (e.1.2 ∈ pop)))
    else S0
  let stF := runLoop imsize mrs ⟨R0, S1, []⟩
  ⟨stF.R, pop, stF.consumed, assemble pop stF.R, []⟩

/-- `selective_search` (line 304): `assert im_orig.shape[2] == 3` guards
everything; with 3 channels the run proceeds on the collaborator-supplied
extraction table. -/
def selectiveSearch (channels width height : ℕ) (raw : List RawRegion)
    (region_pop : Bool) (mrs border : ℤ) : Except String SSOutput :=
  if channels = 3 then Except.ok (ssRun width height raw region_pop mrs border)
  else Except.error "3ch image is expected"

/-- The merge-loop transition as a relation: `st` steps to `st'` when the
similarity map is non-empty and `st'` is the computed next state. -/
inductive MergeStep (imsize : ℚ) (mrs : ℤ) : SSState → SSState → Prop
  | mk (st : SSState) (h : st.S ≠ []) :
      MergeStep imsize mrs st (step imsize mrs st)

/-! ### Helper lemmas about the dict operations -/

theorem dinsert_length_le {α β : Type} [DecidableEq α]
    (l : List (α × β)) (k : α) (v : β) :
    (dinsert l k v).length ≤ l.length + 1 := by
  unfold dinsert
  split
  · rw [List.length_map]; omega
  · rw [List.length_append]; simp

theorem mem_dinsert_elim {α β : Type} [DecidableEq α]
    {l : List (α × β)} {k : α} {v : β} {e : α × β}
    (h : e ∈ dinsert l k v) : e ∈ l ∨ e = (k, v) := by
  unfold dinsert at h
  split at h
  · obtain ⟨x, hx, hfx⟩ := List.mem_map.mp h
    by_cases hk : x.1 = k
    · right; rw [if_pos hk] at hfx; exact hfx.symm
    · left; rw [if_neg hk] at hfx; exact hfx ▸ hx
  · rcases List.mem_append.mp h with h' | h'
    · exact Or.inl h'
    · exact Or.inr (List.mem_singleton.mp h')

theorem dinsert_mem_of_ne {α β : Type} [DecidableEq α]
    {l : List (α × β)} {k : α} {v : β} {k' : α} {v' : β}
    (h : (k, v) ∈ l) (hne : k ≠ k') : (k, v) ∈ dinsert l k' v' := by
  unfold dinsert
  split
  · exact List.mem_map.mpr ⟨(k, v), h, by simp [hne]⟩
  · exact List.mem_append_left _ h

theorem length_foldl_dinsert_le {α β γ : Type} [DecidableEq α]
    (xs : List γ) (fk : γ → α) (fv : List (α × β) → γ → β) :
    ∀ s : List (α × β),
      (xs.foldl (fun s e => dinsert s (fk e) (fv s e)) s).length
        ≤ s.length + xs.length := by
  induction xs with
  | nil => intro s; simp
  | cons x xs ih =>
    intro s
    calc (List.foldl (fun s e => dinsert s (fk e) (fv s e))
          (dinsert s (fk x) (fv s x)) xs).length
        ≤ (dinsert s (fk x) (fv s x)).length + xs.length := ih _
      _ ≤ s.length + 1 + xs.length := by
          have := dinsert_length_le s (fk x) (fv s x); omega
      _ = s.length + (x :: xs).length := by
          simp only [List.length_cons]; omega

theorem mem_foldl_dinsert_elim {α β γ : Type} [DecidableEq α]
    (xs : List γ) (fk : γ → α) (fv : List (α × β) → γ → β) :
    ∀ (s : List (α × β)) (e : α × β),
      e ∈ xs.foldl (fun s x => dinsert s (fk x) (fv s x)) s →
        e ∈ s ∨ ∃ x ∈ xs, e.1 = fk x := by
  induction xs with
  | nil => intro s e he; exact Or.inl he
  | cons x xs ih =>
    intro s e he
    rcases ih (dinsert s (fk x) (fv s x)) e he with h' | ⟨y, hy, hey⟩
    · rcases mem_dinsert_elim h' with h'' | h''
      · exact Or.inl h''
      · exact Or.inr ⟨x, List.mem_cons_self x xs, by rw [h'']⟩
    · exact Or.inr ⟨y, List.mem_cons_of_mem x hy, hey⟩

theorem filter_length_lt {α : Type} (l : List α) (p : α → Bool) (x : α)
    (hx : x ∈ l) (hpx : p x = false) : (l.filter p).length < l.length := by
  induction l with
  | nil => simp at hx
  | cons a t ih =>
    rcases List.mem_cons.mp hx with rfl | hxt
    · rw [List.filter_cons_of_neg (by simp [hpx])]
      have := List.length_filter_le p t
      simp only [List.length_cons]
      omega
    · by_cases hpa : p a = true
      · rw [List.filter_cons_of_pos hpa]
        simp only [List.length_cons]
        exact Nat.succ_lt_succ (ih hxt)
      · rw [List.filter_cons_of_neg (by simpa using hpa)]
        have := ih hxt
        simp only [List.length_cons]
        omega

/-! ### Helper lemmas about `maxKey` and `selectBest` -/

theorem foldl_max_init_le (l : List (ℕ × Region)) :
    ∀ m : ℕ, m ≤ l.foldl (fun m e => max m e.1) m := by
  induction l with
  | nil => intro m; exact Nat.le_refl m
  | cons x xs ih =>
    intro m
    exact Nat.le_trans (Nat.le_max_left m x.1) (ih (max m x.1))

theorem mem_le_foldl_max (l : List (ℕ × Region)) (k : ℕ) (r : Region) :
    ∀ m : ℕ, (k, r) ∈ l → k ≤ l.foldl (fun m e => max m e.1) m := by
  induction l with
  | nil => intro m hm; simp at hm
  | cons x xs ih =>
    intro m hm
    rcases List.mem_cons.mp hm with rfl | hm'
    · exact Nat.le_trans (Nat.le_max_right m k) (foldl_max_init_le xs (max m k))
    · exact ih (max m x.1) hm'

theorem mem_le_maxKey {l : List (ℕ × Region)} {k : ℕ} {r : Region}
    (h : (k, r) ∈ l) : k ≤ maxKey l :=
  mem_le_foldl_max l k r 0 h

theorem foldl_best_mem (rest : List ((ℕ × ℕ) × ℚ)) :
    ∀ e : (ℕ × ℕ) × ℚ,
      rest.foldl (fun acc x => if acc.2 ≤ x.2 then x else acc) e ∈ e :: rest := by
  induction rest with
  | nil => intro e; simp
  | cons x xs ih =>
    intro e
    simp only [List.foldl_cons]
    by_cases h : e.2 ≤ x.2
    · rw [if_pos h]
      exact List.mem_cons_of_mem e (ih x)
    · rw [if_neg h]
      rcases List.mem_cons.mp (ih e) with h' | h'
      · exact List.mem_cons.mpr (Or.inl h')
      · exact List.mem_cons_of_mem _ (List.mem_cons_of_mem x h')

theorem selectBest_mem (l : List ((ℕ × ℕ) × ℚ)) (h : l ≠ []) :
    selectBest l ∈ l := by
  cases l with
  | nil => exact absurd rfl h
  | cons e rest => exact foldl_best_mem rest e

theorem foldl_best_init_le (rest : List ((ℕ × ℕ) × ℚ)) :
    ∀ e : (ℕ × ℕ) × ℚ,
      e.2 ≤ (rest.foldl (fun acc x => if acc.2 ≤ x.2 then x else acc) e).2 := by
  induction rest with
  | nil => intro e; exact le_refl _
  | cons x xs ih =>
    intro e
    simp only [List.foldl_cons]
    by_cases h : e.2 ≤ x.2
    · rw [if_pos h]; exact le_trans h (ih x)
    · rw [if_neg h]; exact ih e

theorem foldl_best_split (rest : List ((ℕ × ℕ) × ℚ)) :
    ∀ e : (ℕ × ℕ) × ℚ,
      ∃ l1 l2,
        e :: rest
          = l1 ++ (rest.foldl (fun acc x => if acc.2 ≤ x.2 then x else acc) e) :: l2
        ∧ (∀ x ∈ l1,
            x.2 ≤ (rest.foldl (fun acc x => if acc.2 ≤ x.2 then x else acc) e).2)
        ∧ (∀ x ∈ l2,
            x.2 < (rest.foldl (fun acc x => if acc.2 ≤ x.2 then x else acc) e).2) := by
  induction rest with
  | nil =>
    intro e
    exact ⟨[], [], by simp, by simp, by simp⟩
  | cons x xs ih =>
    intro e
    simp only [List.foldl_cons]
    by_cases h : e.2 ≤ x.2
    · rw [if_pos h]
      obtain ⟨l1, l2, heq, h1, h2⟩ := ih x
      refine ⟨e :: l1, l2, by rw [List.cons_append, ← heq], ?_, h2⟩
      intro y hy
      rcases List.mem_cons.mp hy with rfl | hy'
      · exact le_trans h (foldl_best_init_le xs x)
      · exact h1 y hy'
    · rw [if_neg h]
      obtain ⟨l1, l2, heq, h1, h2⟩ := ih e
      cases l1 with
      | nil =>
        rw [List.nil_append] at heq
        injection heq with he' hl2'
        refine ⟨[], x :: xs, ?_, by simp, ?_⟩
        · rw [List.nil_append, ← he']
        · intro y hy
          rcases List.mem_cons.mp hy with rfl | hy'
          · rw [← he']; exact lt_of_not_le h
          · exact h2 y (hl2' ▸ hy')
      | cons a l1' =>
        rw [List.cons_append] at heq
        injection heq with ha htail
        refine ⟨e :: x :: l1', l2, ?_, ?_, h2⟩
        · rw [List.cons_append, List.cons_append, ← htail]
        · intro y hy
          have hea : e.2 ≤ (xs.foldl (fun acc x => if acc.2 ≤ x.2 then x else acc) e).2 :=
            foldl_best_init_le xs e
          rcases List.mem_cons.mp hy with rfl | hy'
          · exact hea
          · rcases List.mem_cons.mp hy' with rfl | hy''
            · exact le_trans (le_of_lt (lt_of_not_le h)) hea
            · exact h1 y (List.mem_cons_of_mem a hy'')

theorem selectBest_spec (e : (ℕ × ℕ) × ℚ) (rest : List ((ℕ × ℕ) × ℚ)) :
    ∃ l1 l2,
      e :: rest = l1 ++ selectBest (e :: rest) :: l2
      ∧ (∀ x ∈ l1, x.2 ≤ (selectBest (e :: rest)).2)
      ∧ (∀ x ∈ l2, x.2 < (selectBest (e :: rest)).2) :=
  foldl_best_split rest e

/-! ### The merge loop shrinks `S` and terminates -/

theorem step_nil (imsize : ℚ) (mrs : ℤ) (st : SSState) (h : st.S = []) :
    step imsize mrs st = st := by
  simp [step, h]

theorem step_S_length_lt (imsize : ℚ) (mrs : ℤ) (st : SSState)
    (h : st.S ≠ []) : (step imsize mrs st).S.length < st.S.length := by
  have hE : st.S.isEmpty = false := by
    cases hS : st.S with
    | nil => exact absurd hS h
    | cons a l => rfl
  have hsel := selectBest_mem st.S h
  simp only [step, hE, Bool.false_eq_true, if_false]
  generalize hg : selectBest st.S = sel
  rw [hg] at hsel
  have htch : touches sel.1.1 sel.1.2 sel.1 = true := by simp [touches]
  have hS1 : (st.S.filter (fun e => !touches sel.1.1 sel.1.2 e.1)).length
      < st.S.length :=
    filter_length_lt st.S _ sel hsel (by simp [touches])
  split
  · exact hS1
  · refine lt_of_le_of_lt (length_foldl_dinsert_le _ _ _ _) ?_
    have h1 : (((st.S.filter (fun e => touches sel.1.1 sel.1.2 e.1)).filter
        (fun e => decide (e.1 ≠ (sel.1.1, sel.1.2)))).length)
        < (st.S.filter (fun e => touches sel.1.1 sel.1.2 e.1)).length :=
      filter_length_lt _ _ sel
        (List.mem_filter.mpr ⟨hsel, htch⟩) (by simp)
    have h2 := @List.length_eq_length_filter_add _ st.S
      (fun e => touches sel.1.1 sel.1.2 e.1)
    have h2' : st.S.length
        = (st.S.filter (fun e => touches sel.1.1 sel.1.2 e.1)).length
          + (st.S.filter (fun e => !touches sel.1.1 sel.1.2 e.1)).length := by
      simpa using h2
    omega

theorem iterate_S_empty (imsize : ℚ) (mrs : ℤ) :
    ∀ (n : ℕ) (st : SSState), st.S.length ≤ n →
      ((step imsize mrs)^[n] st).S = [] := by
  intro n
  induction n with
  | zero =>
    intro st hst
    rw [Function.iterate_zero_apply]
    exact List.eq_nil_of_length_eq_zero (Nat.le_zero.mp hst)
  | succ n ih =>
    intro st hst
    rw [Function.iterate_succ_apply]
    by_cases hS : st.S = []
    · rw [step_nil imsize mrs st hS]
      exact ih st (by rw [hS]; exact Nat.zero_le n)
    · have := step_S_length_lt imsize mrs st hS
      exact ih _ (by omega)

theorem runLoop_S_empty (imsize : ℚ) (mrs : ℤ) (st : SSState) :
    (runLoop imsize mrs st).S = [] :=
  iterate_S_empty imsize mrs st.S.length st (Nat.le_refl _)

/-! ### Frozen regions stay edge-free and in the table -/

theorem step_frozen_inv (imsize : ℚ) (mrs : ℤ) (t : ℕ) (rt : Region)
    (st : SSState)
    (h1 : ∀ e ∈ st.S, e.1.1 ≠ t ∧ e.1.2 ≠ t)
    (h2 : (t, rt) ∈ st.R) :
    (∀ e ∈ (step imsize mrs st).S, e.1.1 ≠ t ∧ e.1.2 ≠ t)
    ∧ (t, rt) ∈ (step imsize mrs st).R := by
  by_cases hS : st.S = []
  · rw [step_nil imsize mrs st hS]; exact ⟨h1, h2⟩
  · have hE : st.S.isEmpty = false := by
      cases hX : st.S with
      | nil => exact absurd hX hS
      | cons a l => rfl
    have htlt : t < maxKey st.R + 1 := Nat.lt_succ_of_le (mem_le_maxKey h2)
    have hmemR : (t, rt) ∈ dinsert st.R (maxKey st.R + 1)
        (mergeRegions (rlookup st.R (selectBest st.S).1.1)
          (rlookup st.R (selectBest st.S).1.2)) :=
      dinsert_mem_of_ne h2 (Nat.ne_of_lt htlt)
    simp only [step, hE, Bool.false_eq_true, if_false]
    split
    · exact ⟨fun e he => h1 e (List.mem_of_mem_filter he), hmemR⟩
    · refine ⟨?_, hmemR⟩
      intro e he
      rcases mem_foldl_dinsert_elim _ _ _ _ e he with h' | ⟨x, hx, hex⟩
      · exact h1 e (List.mem_of_mem_filter h')
      · have hx' : x ∈ st.S :=
          List.mem_of_mem_filter (List.mem_of_mem_filter hx)
        have hxc := h1 x hx'
        have h11 : e.1.1 = maxKey st.R + 1 := by rw [hex]
        have h12 : e.1.2
            = if x.1.1 = (selectBest st.S).1.1 ∨ x.1.1 = (selectBest st.S).1.2
              then x.1.2 else x.1.1 := by rw [hex]
        refine ⟨by rw [h11]; omega, ?_⟩
        rw [h12]
        split
        · exact hxc.2
        · exact hxc.1

theorem iterate_frozen_inv (imsize : ℚ) (mrs : ℤ) (t : ℕ) (rt : Region) :
    ∀ (n : ℕ) (st : SSState),
      (∀ e ∈ st.S, e.1.1 ≠ t ∧ e.1.2 ≠ t) → (t, rt) ∈ st.R →
      (∀ e ∈ ((step imsize mrs)^[n] st).S, e.1.1 ≠ t ∧ e.1.2 ≠ t)
        ∧ (t, rt) ∈ ((step imsize mrs)^[n] st).R := by
  intro n
  induction n with
  | zero => intro st h1 h2; rw [Function.iterate_zero_apply]; exact ⟨h1, h2⟩
  | succ n ih =>
    intro st h1 h2
    rw [Function.iterate_succ_apply]
    obtain ⟨h1', h2'⟩ := step_frozen_inv imsize mrs t rt st h1 h2
    exact ih (step imsize mrs st) h1' h2'

/-! ### Proposal assembly lemmas -/

theorem mem_assemble {pop : List ℕ} {R : List (ℕ × Region)} {k : ℕ}
    {r : Region} (h : (k, r) ∈ R) (hp : k ∉ pop) :
    mkRecord r ∈ assemble pop R :=
  List.mem_filterMap.mpr ⟨(k, r), h, by simp [hp]⟩

theorem assemble_elim {pop : List ℕ} {R : List (ℕ × Region)} {p : Proposal}
    (h : p ∈ assemble pop R) :
    ∃ k r, (k, r) ∈ R ∧ k ∉ pop ∧ p = mkRecord r := by
  obtain ⟨e, he, hfe⟩ := List.mem_filterMap.mp h
  by_cases hk : e.1 ∈ pop
  · rw [if_pos hk] at hfe; cases hfe
  · rw [if_neg hk] at hfe
    exact ⟨e.1, e.2, by simpa using he, hk, (Option.some.inj hfe).symm⟩

theorem self_mem_dinsert {α β : Type} [DecidableEq α]
    (l : List (α × β)) (k : α) (v : β) : (k, v) ∈ dinsert l k v := by
  unfold dinsert
  split
  · rename_i hany
    obtain ⟨e, he, hek⟩ := List.any_eq_true.mp hany
    exact List.mem_map.mpr ⟨e, he, by simp [of_decide_eq_true hek]⟩
  · exact List.mem_append_right _ (List.mem_singleton.mpr rfl)

theorem regionOf_size (t : MergeTree) : (regionOf t).size = leafSizeSum t := by
  induction t with
  | leaf r => rfl
  | node a b iha ihb =>
    show (mergeRegions (regionOf a) (regionOf b)).size = _
    show (regionOf a).size + (regionOf b).size = _
    rw [iha, ihb]
    rfl

/-! ### Claims -/

/-- C2 (corrected): the source does NOT recompute `bbox_size` from the
current bbox at every geometric change.  `_merge_regions` does
(`bbox_size = (max_x - min_x) * (max_y - min_y)` of the merged bbox), but
`_expand_regions` sets `bbox_size` from the PRE-expansion bbox — which the
expanded record retains as its `og_*` fields — not from the expanded
(current) bbox. -/
theorem c2_bbox_size_amended :
    (∀ (border x_lim y_lim : ℤ) (r : RawRegion),
      (expandRegion border x_lim y_lim r).bbox_size
        = ((expandRegion border x_lim y_lim r).og_max_x
            - (expandRegion border x_lim y_lim r).og_min_x)
          * ((expandRegion border x_lim y_lim r).og_max_y
            - (expandRegion border x_lim y_lim r).og_min_y))
    ∧ (∀ r1 r2 : Region,
        (mergeRegions r1 r2).bbox_size
          = ((mergeRegions r1 r2).max_x - (mergeRegions r1 r2).min_x)
            * ((mergeRegions r1 r2).max_y - (mergeRegions r1 r2).min_y)) :=
  ⟨fun _ _ _ _ => rfl, fun _ _ => rfl⟩

/-- C2 counterexample: the region with bbox `(5,5)-(6,6)` expanded by
`border = 1` inside a `100 × 100` image has `bbox_size = 1` (the area of
its pre-expansion bbox) while its current bbox `(4,4)-(7,7)` has area `9`,
so immediately after expansion `bbox_size` differs from
`(max_x - min_x) * (max_y - min_y)` of the current bbox. -/
theorem c2_bbox_size_counterexample :
    (expandRegion 1 100 100 ⟨5, 5, 6, 6, 1, [], [], [0], 1⟩).bbox_size = 1
    ∧ ((expandRegion 1 100 100 ⟨5, 5, 6, 6, 1, [], [], [0], 1⟩).max_x
        - (expandRegion 1 100 100 ⟨5, 5, 6, 6, 1, [], [], [0], 1⟩).min_x)
      * ((expandRegion 1 100 100 ⟨5, 5, 6, 6, 1, [], [], [0], 1⟩).max_y
        - (expandRegion 1 100 100 ⟨5, 5, 6, 6, 1, [], [], [0], 1⟩).min_y) = 9
    ∧ (expandRegion 1 100 100 ⟨5, 5, 6, 6, 1, [], [], [0], 1⟩).bbox_size
      ≠ ((expandRegion 1 100 100 ⟨5, 5, 6, 6, 1, [], [], [0], 1⟩).max_x
          - (expandRegion 1 100 100 ⟨5, 5, 6, 6, 1, [], [], [0], 1⟩).min_x)
        * ((expandRegion 1 100 100 ⟨5, 5, 6, 6, 1, [], [], [0], 1⟩).max_y
          - (expandRegion 1 100 100 ⟨5, 5, 6, 6, 1, [], [], [0], 1⟩).min_y) := by
  decide

/-- C3 (confirmed): `_merge_regions` gives the merged region a `size` that
is exactly the sum of the parents' sizes, and consequently the sum of
`size` over any frontier (cut) of a merge tree equals the sum of `size`
over its original leaf regions. -/
theorem c3_size_conservation :
    (∀ r1 r2 : Region, (mergeRegions r1 r2).size = r1.size + r2.size)
    ∧ (∀ (t : MergeTree) (f : List MergeTree), IsFrontier t f →
        (f.map (fun s => (regionOf s).size)).sum = leafSizeSum t) := by
  refine ⟨fun r1 r2 => rfl, ?_⟩
  intro t f hf
  induction hf with
  | single t => simp [regionOf_size]
  | split ha hb iha ihb =>
    rw [List.map_append, List.sum_append, iha, ihb]
    rfl

/-- C3 witness: a two-leaf merge tree with leaf sizes 3 and 4; the
two-leaf frontier sums to the leaf total. -/
theorem c3_size_conservation_witness :
    ([MergeTree.leaf ⟨0, 0, 2, 2, 0, 0, 2, 2, 3, [], [], [0], 4⟩,
      MergeTree.leaf ⟨1, 1, 3, 3, 1, 1, 3, 3, 4, [], [], [1], 4⟩].map
        (fun s => (regionOf s).size)).sum
      = leafSizeSum
          (MergeTree.node
            (MergeTree.leaf ⟨0, 0, 2, 2, 0, 0, 2, 2, 3, [], [], [0], 4⟩)
            (MergeTree.leaf ⟨1, 1, 3, 3, 1, 1, 3, 3, 4, [], [], [1], 4⟩)) :=
  c3_size_conservation.2 _ _
    (IsFrontier.split (IsFrontier.single _) (IsFrontier.single _))

/-- C4 (confirmed): the merged region's `labels` (list concatenation in
the source), viewed as a set, is exactly the union of the parents' label
sets, and a region's label set never shrinks along the merge hierarchy:
every label of a subtree's region is a label of every ancestor's
region. -/
theorem c4_label_union_monotone :
    (∀ (r1 r2 : Region) (l : ℕ),
      l ∈ (mergeRegions r1 r2).labels ↔ l ∈ r1.labels ∨ l ∈ r2.labels)
    ∧ (∀ s t : MergeTree, IsSubtree s t →
        ∀ l : ℕ, l ∈ (regionOf s).labels → l ∈ (regionOf t).labels) := by
  have hmem : ∀ (r1 r2 : Region) (l : ℕ),
      l ∈ (mergeRegions r1 r2).labels ↔ l ∈ r1.labels ∨ l ∈ r2.labels := by
    intro r1 r2 l
    show l ∈ r1.labels ++ r2.labels ↔ _
    exact List.mem_append
  refine ⟨hmem, ?_⟩
  intro s t hst
  induction hst with
  | refl t => exact fun l h => h
  | left b hsub ih =>
    intro l hl
    exact (hmem _ _ l).mpr (Or.inl (ih l hl))
  | right a hsub ih =>
    intro l hl
    exact (hmem _ _ l).mpr (Or.inr (ih l hl))

/-- C4 witness: label `7` of a leaf survives into the merge of that leaf
with another region. -/
theorem c4_label_union_monotone_witness :
    (7 : ℕ) ∈ (regionOf
      (MergeTree.node
        (MergeTree.leaf ⟨0, 0, 2, 2, 0, 0, 2, 2, 3, [], [], [7], 4⟩)
        (MergeTree.leaf ⟨1, 1, 3, 3, 1, 1, 3, 3, 4, [], [], [8], 4⟩))).labels :=
  c4_label_union_monotone.2 _ _
    (IsSubtree.left _ (IsSubtree.refl _)) 7 (by decide)

/-- C5 (confirmed): every iteration of the merge loop on a non-empty edge
set strictly decreases the number of similarity edges (the edges removed
for the two consumed endpoints always include the selected edge itself,
which is never re-inserted), and therefore the loop terminates: after at
most `S.length` steps — exactly what `runLoop` iterates — the edge set is
empty. -/
theorem c5_merge_loop_terminates (imsize : ℚ) (mrs : ℤ) (st : SSState) :
    (st.S ≠ [] → (step imsize mrs st).S.length < st.S.length)
    ∧ (runLoop imsize mrs st).S = [] :=
  ⟨step_S_length_lt imsize mrs st, runLoop_S_empty imsize mrs st⟩

/-- C5 witness: a state with one edge loses it in one step and the loop
drains the edge set. -/
theorem c5_merge_loop_terminates_witness :
    (step 100 3000 ⟨[], [((0, 1), (5 : ℚ))], []⟩).S.length
      < (SSState.mk [] [((0, 1), (5 : ℚ))] []).S.length
    ∧ (runLoop 100 3000 ⟨[], [((0, 1), (5 : ℚ))], []⟩).S = [] :=
  ⟨(c5_merge_loop_terminates 100 3000 ⟨[], [((0, 1), 5)], []⟩).1 (by decide),
   (c5_merge_loop_terminates 100 3000 ⟨[], [((0, 1), 5)], []⟩).2⟩

/-- Modelled from the spec's §4.3 wording, for comparison with the
source's test: point `(x, y)` lies strictly inside region `a`'s bbox. -/
def specCornerInside (a : Region) (x y : ℤ) : Prop :=
  a.min_x < x ∧ x < a.max_x ∧ a.min_y < y ∧ y < a.max_y

/-- C7 (corrected): `intersect(a, b)` holds exactly when one of the four
corners of `b`'s bbox lies strictly inside `a`'s bbox — corners of `b`
only, so the test is NOT symmetric in its two arguments (see the
counterexample, where `b`'s bbox strictly contains `a`'s). -/
theorem c7_corner_test_amended (a b : Region) :
    intersect a b = true ↔
      (specCornerInside a b.min_x b.min_y
        ∨ specCornerInside a b.max_x b.max_y
        ∨ specCornerInside a b.min_x b.max_y
        ∨ specCornerInside a b.max_x b.min_y) := by
  simp [intersect, specCornerInside]

/-- C7 counterexample: with `A = (0,0)-(10,10)` and `B = (2,2)-(4,4)`
(both well-formed), every corner of `B` is strictly inside `A` but no
corner of `A` is strictly inside `B`, so the corner-containment test gives
different results for `(A, B)` and `(B, A)`. -/
theorem c7_corner_test_counterexample :
    intersect ⟨0, 0, 10, 10, 0, 0, 10, 10, 1, [], [], [], 100⟩
        ⟨2, 2, 4, 4, 2, 2, 4, 4, 1, [], [], [], 4⟩ = true
    ∧ intersect ⟨2, 2, 4, 4, 2, 2, 4, 4, 1, [], [], [], 4⟩
        ⟨0, 0, 10, 10, 0, 0, 10, 10, 1, [], [], [], 100⟩ = false
    ∧ (⟨0, 0, 10, 10, 0, 0, 10, 10, 1, [], [], [], 100⟩ : Region).min_x
        ≤ (⟨0, 0, 10, 10, 0, 0, 10, 10, 1, [], [], [], 100⟩ : Region).max_x
    ∧ (⟨0, 0, 10, 10, 0, 0, 10, 10, 1, [], [], [], 100⟩ : Region).min_y
        ≤ (⟨0, 0, 10, 10, 0, 0, 10, 10, 1, [], [], [], 100⟩ : Region).max_y
    ∧ (⟨2, 2, 4, 4, 2, 2, 4, 4, 1, [], [], [], 4⟩ : Region).min_x
        ≤ (⟨2, 2, 4, 4, 2, 2, 4, 4, 1, [], [], [], 4⟩ : Region).max_x
    ∧ (⟨2, 2, 4, 4, 2, 2, 4, 4, 1, [], [], [], 4⟩ : Region).min_y
        ≤ (⟨2, 2, 4, 4, 2, 2, 4, 4, 1, [], [], [], 4⟩ : Region).max_y := by
  decide

/-- C9 (confirmed): `selective_search` asserts `im_orig.shape[2] == 3` as
its very first statement — any other channel count is rejected with the
assertion message before any other computation, and with exactly 3
channels the run proceeds to the pipeline. -/
theorem c9_channel_validation (channels width height : ℕ)
    (raw : List RawRegion) (region_pop : Bool) (mrs border : ℤ) :
    (channels ≠ 3 →
      selectiveSearch channels width height raw region_pop mrs border
        = Except.error "3ch image is expected")
    ∧ (channels = 3 →
      selectiveSearch channels width height raw region_pop mrs border
        = Except.ok (ssRun width height raw region_pop mrs border)) := by
  constructor
  · intro h; simp [selectiveSearch, h]
  · intro h; simp [selectiveSearch, h]

/-- C9 witness: a 4-channel input is rejected, a 3-channel input is
accepted. -/
theorem c9_channel_validation_witness :
    selectiveSearch 4 1 1 [] false 0 0 = Except.error "3ch image is expected"
    ∧ selectiveSearch 3 1 1 [] false 0 0 = Except.ok (ssRun 1 1 [] false 0 0) :=
  ⟨(c9_channel_validation 4 1 1 [] false 0 0).1 (by decide),
   (c9_channel_validation 3 1 1 [] false 0 0).2 rfl⟩

theorem concat3_sum (B : ℕ) (hB : 0 < B) (lo hi : ℚ)
    (pixels : List (ℚ × ℚ × ℚ)) :
    (((histogram (pixels.map (fun p => p.1)) B lo hi
        ++ histogram (pixels.map (fun p => p.2.1)) B lo hi)
        ++ histogram (pixels.map (fun p => p.2.2)) B lo hi).map
      (fun (k : ℕ) => (k : ℚ) / (pixels.length : ℚ))).sum
      = ((((pixels.map (fun p => p.1)).filter (inRange lo hi)).length
          + ((pixels.map (fun p => p.2.1)).filter (inRange lo hi)).length
          + ((pixels.map (fun p => p.2.2)).filter (inRange lo hi)).length : ℕ)
          : ℚ)
        / (pixels.length : ℚ) := by
  rw [sum_map_div, List.sum_append, List.sum_append,
    histogram_sum _ B hB, histogram_sum _ B hB, histogram_sum _ B hB]

theorem filter_all_inRange (lo hi : ℚ) (pixels : List (ℚ × ℚ × ℚ))
    (f : ℚ × ℚ × ℚ → ℚ)
    (hall : ∀ p ∈ pixels, inRange lo hi (f p) = true) :
    (pixels.map f).filter (inRange lo hi) = pixels.map f := by
  apply List.filter_eq_self.mpr
  intro a ha
  obtain ⟨p, hp, rfl⟩ := List.mem_map.mp ha
  exact hall p hp

theorem three_n_div_n (n : ℕ) (hn : n ≠ 0) :
    (((n + n + n : ℕ)) : ℚ) / (n : ℚ) = 3 := by
  have hq : (n : ℚ) ≠ 0 := Nat.cast_ne_zero.mpr hn
  push_cast
  field_simp
  ring

/-- C6 (corrected): on a non-empty pixel sample the colour histogram has
length 75 (25 bins × 3 channels) and the texture histogram length 30
(10 bins × 3 channels), each entry being a bin count divided by the
sample's pixel count; but the vectors do NOT sum to 1: each channel slice
sums to (in-range count)/N, so a vector sums to 3 — one per channel —
whenever every sampled value lies inside the histogram range (and to less
when values fall outside, as LBP texture codes above 1.0 do). -/
theorem c6_histogram_normalization (pixels : List (ℚ × ℚ × ℚ))
    (h : pixels ≠ []) :
    (calcColourHist pixels).length = 75
    ∧ (calcTextureHist pixels).length = 30
    ∧ (calcColourHist pixels).sum
      = ((((pixels.map (fun p => p.1)).filter (inRange 0 255)).length
          + ((pixels.map (fun p => p.2.1)).filter (inRange 0 255)).length
          + ((pixels.map (fun p => p.2.2)).filter (inRange 0 255)).length : ℕ)
          : ℚ)
        / (pixels.length : ℚ)
    ∧ ((∀ p ∈ pixels, inRange 0 255 p.1 = true ∧ inRange 0 255 p.2.1 = true
          ∧ inRange 0 255 p.2.2 = true) →
        (calcColourHist pixels).sum = 3)
    ∧ ((∀ p ∈ pixels, inRange 0 1 p.1 = true ∧ inRange 0 1 p.2.1 = true
          ∧ inRange 0 1 p.2.2 = true) →
        (calcTextureHist pixels).sum = 3) := by
  have hn : pixels.length ≠ 0 := by
    intro hc
    exact h (List.eq_nil_of_length_eq_zero hc)
  have h25 : (0 : ℕ) < 25 := by norm_num
  have h10 : (0 : ℕ) < 10 := by norm_num
  refine ⟨?_, ?_, concat3_sum 25 h25 0 255 pixels, ?_, ?_⟩
  · simp [calcColourHist, histogram_length _ 25 h25]
  · simp [calcTextureHist, histogram_length _ 10 h10]
  · intro hall
    have := concat3_sum 25 h25 0 255 pixels
    rw [filter_all_inRange 0 255 pixels _ (fun p hp => (hall p hp).1),
      filter_all_inRange 0 255 pixels _ (fun p hp => (hall p hp).2.1),
      filter_all_inRange 0 255 pixels _ (fun p hp => (hall p hp).2.2)]
      at this
    rw [show (calcColourHist pixels).sum
        = (((histogram (pixels.map (fun p => p.1)) 25 0 255
            ++ histogram (pixels.map (fun p => p.2.1)) 25 0 255)
            ++ histogram (pixels.map (fun p => p.2.2)) 25 0 255).map
          (fun (k : ℕ) => (k : ℚ) / (pixels.length : ℚ))).sum from rfl,
      this]
    simp only [List.length_map]
    exact three_n_div_n pixels.length hn
  · intro hall
    have := concat3_sum 10 h10 0 1 pixels
    rw [filter_all_inRange 0 1 pixels _ (fun p hp => (hall p hp).1),
      filter_all_inRange 0 1 pixels _ (fun p hp => (hall p hp).2.1),
      filter_all_inRange 0 1 pixels _ (fun p hp => (hall p hp).2.2)]
      at this
    rw [show (calcTextureHist pixels).sum
        = (((histogram (pixels.map (fun p => p.1)) 10 0 1
            ++ histogram (pixels.map (fun p => p.2.1)) 10 0 1)
            ++ histogram (pixels.map (fun p => p.2.2)) 10 0 1).map
          (fun (k : ℕ) => (k : ℚ) / (pixels.length : ℚ))).sum from rfl,
      this]
    simp only [List.length_map]
    exact three_n_div_n pixels.length hn

/-- C6 counterexample: the single-pixel sample `(0, 0, 0)` — in range for
both histograms — yields a colour histogram summing to 3 and a texture
histogram summing to 3, not 1. -/
theorem c6_histogram_normalization_counterexample :
    (calcColourHist [((0 : ℚ), (0 : ℚ), (0 : ℚ))]).sum = 3
    ∧ (calcColourHist [((0 : ℚ), (0 : ℚ), (0 : ℚ))]).sum ≠ 1
    ∧ (calcTextureHist [((0 : ℚ), (0 : ℚ), (0 : ℚ))]).sum = 3
    ∧ (calcTextureHist [((0 : ℚ), (0 : ℚ), (0 : ℚ))]).sum ≠ 1 := by
  have hc := concat3_sum 25 (by norm_num) 0 255 [((0 : ℚ), (0 : ℚ), (0 : ℚ))]
  have ht := concat3_sum 10 (by norm_num) 0 1 [((0 : ℚ), (0 : ℚ), (0 : ℚ))]
  rw [(by decide : (([((0 : ℚ), (0 : ℚ), (0 : ℚ))].map (fun p => p.1)).filter
        (inRange 0 255)).length = 1),
    (by decide : (([((0 : ℚ), (0 : ℚ), (0 : ℚ))].map (fun p => p.2.1)).filter
        (inRange 0 255)).length = 1),
    (by decide : (([((0 : ℚ), (0 : ℚ), (0 : ℚ))].map (fun p => p.2.2)).filter
        (inRange 0 255)).length = 1)] at hc
  rw [(by decide : (([((0 : ℚ), (0 : ℚ), (0 : ℚ))].map (fun p => p.1)).filter
        (inRange 0 1)).length = 1),
    (by decide : (([((0 : ℚ), (0 : ℚ), (0 : ℚ))].map (fun p => p.2.1)).filter
        (inRange 0 1)).length = 1),
    (by decide : (([((0 : ℚ), (0 : ℚ), (0 : ℚ))].map (fun p => p.2.2)).filter
        (inRange 0 1)).length = 1)] at ht
  have hcs : (calcColourHist [((0 : ℚ), (0 : ℚ), (0 : ℚ))]).sum = 3 := by
    refine Eq.trans hc ?_
    norm_num
  have hts : (calcTextureHist [((0 : ℚ), (0 : ℚ), (0 : ℚ))]).sum = 3 := by
    refine Eq.trans ht ?_
    norm_num
  refine ⟨hcs, ?_, hts, ?_⟩
  · rw [hcs]; norm_num
  · rw [hts]; norm_num

/-- C6 witness: the theorem applied to the non-empty in-range sample
`[(0, 0, 0)]`. -/
theorem c6_histogram_normalization_witness :
    (calcColourHist [((0 : ℚ), (0 : ℚ), (0 : ℚ))]).length = 75
    ∧ (calcTextureHist [((0 : ℚ), (0 : ℚ), (0 : ℚ))]).sum = 3 :=
  ⟨(c6_histogram_normalization [(0, 0, 0)] (by decide)).1,
   (c6_histogram_normalization [(0, 0, 0)] (by decide)).2.2.2.2 (by decide)⟩

/-- C10 (confirmed): the merge engine is deterministic — the transition
relation is functional, equal inputs give equal `selective_search`
results — and ties in the maximum-score selection are broken by a fixed
rule: `selectBest` returns an edge of maximal score, namely the LAST
edge of maximal score in insertion order (every earlier edge scores `≤`
it, every later edge scores strictly less), exactly the last element of
Python's stable ascending sort. -/
theorem c10_determinism :
    (∀ (imsize : ℚ) (mrs : ℤ) (st t1 t2 : SSState),
      MergeStep imsize mrs st t1 → MergeStep imsize mrs st t2 → t1 = t2)
    ∧ (∀ (channels width height : ℕ) (raw : List RawRegion) (rp : Bool)
        (mrs border : ℤ),
        selectiveSearch channels width height raw rp mrs border
          = selectiveSearch channels width height raw rp mrs border)
    ∧ (∀ (e : (ℕ × ℕ) × ℚ) (rest : List ((ℕ × ℕ) × ℚ)),
        ∃ l1 l2, e :: rest = l1 ++ selectBest (e :: rest) :: l2
          ∧ (∀ x ∈ l1, x.2 ≤ (selectBest (e :: rest)).2)
          ∧ (∀ x ∈ l2, x.2 < (selectBest (e :: rest)).2)) := by
  refine ⟨?_, fun _ _ _ _ _ _ _ => rfl, selectBest_spec⟩
  intro imsize mrs st t1 t2 h1 h2
  cases h1
  cases h2
  rfl

/-- C10 witness: the transition relation applied twice to the same
one-edge state yields the same successor. -/
theorem c10_determinism_witness :
    step 100 3000 ⟨[], [((0, 1), (5 : ℚ))], []⟩
      = step 100 3000 ⟨[], [((0, 1), (5 : ℚ))], []⟩ :=
  c10_determinism.1 100 3000 ⟨[], [((0, 1), 5)], []⟩ _ _
    (MergeStep.mk _ (by decide)) (MergeStep.mk _ (by decide))

/-- C8 (confirmed): when a merge at some loop state produces a region `rt`
(stored at the fresh key `t`) whose `bbox_size` exceeds `max_region_size`,
no similarity edge to or from `t` exists after that step or after any
number of further steps — `t` is frozen and can never be selected for a
merge again — yet `(t, rt)` stays in the table and its record (with the
merged geometry) is in the final proposal list whenever `t` is not in the
`region_pop` exclusion list. -/
theorem c8_frozen_region (imsize : ℚ) (mrs : ℤ) (st0 : SSState)
    (pop : List ℕ) (t : ℕ) (rt : Region)
    (hne : st0.S ≠ [])
    (ht : t = maxKey st0.R + 1)
    (hrt : rt = mergeRegions (rlookup st0.R (selectBest st0.S).1.1)
      (rlookup st0.R (selectBest st0.S).1.2))
    (hfrozen : mrs < rt.bbox_size)
    (hkeys : ∀ e ∈ st0.S, e.1.1 ≠ t ∧ e.1.2 ≠ t)
    (hpop : t ∉ pop) :
    (∀ n : ℕ,
      (∀ e ∈ ((step imsize mrs)^[n] (step imsize mrs st0)).S,
        e.1.1 ≠ t ∧ e.1.2 ≠ t)
      ∧ (t, rt) ∈ ((step imsize mrs)^[n] (step imsize mrs st0)).R)
    ∧ mkRecord rt ∈ assemble pop (runLoop imsize mrs (step imsize mrs st0)).R := by
  have hE : st0.S.isEmpty = false := by
    cases hX : st0.S with
    | nil => exact absurd hX hne
    | cons a l => rfl
  have hstep : step imsize mrs st0
      = ⟨dinsert st0.R t rt,
         st0.S.filter (fun e => !touches (selectBest st0.S).1.1
           (selectBest st0.S).1.2 e.1),
         st0.consumed ++ [(selectBest st0.S).1.1, (selectBest st0.S).1.2]⟩ := by
    simp only [step, hE, Bool.false_eq_true, if_false, ← hrt, ← ht]
    rw [if_pos hfrozen]
  have hS' : ∀ e ∈ (step imsize mrs st0).S, e.1.1 ≠ t ∧ e.1.2 ≠ t := by
    simp only [hstep]
    intro e he
    exact hkeys e (List.mem_of_mem_filter he)
  have hR' : (t, rt) ∈ (step imsize mrs st0).R := by
    simp only [hstep]
    exact self_mem_dinsert st0.R t rt
  refine ⟨fun n => iterate_frozen_inv imsize mrs t rt n _ hS' hR', ?_⟩
  exact mem_assemble
    (iterate_frozen_inv imsize mrs t rt
      ((step imsize mrs st0).S.length) _ hS' hR').2 hpop

/-- C8 witness: two unit-size regions whose merge has `bbox_size = 9 > 1 =
max_region_size`; the frozen merged region's record is still assembled
into the final proposals. -/
theorem c8_frozen_region_witness :
    mkRecord (mergeRegions ⟨0, 0, 2, 2, 0, 0, 2, 2, 1, [1], [1], [0], 4⟩
        ⟨1, 1, 3, 3, 1, 1, 3, 3, 1, [1], [1], [1], 4⟩)
      ∈ assemble []
          (runLoop 100 1
            (step 100 1
              ⟨[(0, ⟨0, 0, 2, 2, 0, 0, 2, 2, 1, [1], [1], [0], 4⟩),
                (1, ⟨1, 1, 3, 3, 1, 1, 3, 3, 1, [1], [1], [1], 4⟩)],
               [((0, 1), (5 : ℚ))], []⟩)).R :=
  (c8_frozen_region 100 1
    ⟨[(0, ⟨0, 0, 2, 2, 0, 0, 2, 2, 1, [1], [1], [0], 4⟩),
      (1, ⟨1, 1, 3, 3, 1, 1, 3, 3, 1, [1], [1], [1], 4⟩)],
     [((0, 1), (5 : ℚ))], []⟩ [] 2
    (mergeRegions ⟨0, 0, 2, 2, 0, 0, 2, 2, 1, [1], [1], [0], 4⟩
      ⟨1, 1, 3, 3, 1, 1, 3, 3, 1, [1], [1], [1], 4⟩)
    (by decide) (by decide) rfl (by decide) (by decide) (by decide)).2

/-- C1 (corrected): the final proposal list contains one record for EVERY
region in the final table whose key is not flagged by `region_pop` —
including regions that were consumed as merge inputs, which the source
never removes from `R` — and every emitted record carries
`rect = (min_x, min_y, max_x - min_x, max_y - min_y)` of the region's
(expanded) bbox together with its `bbox_size`, `size` and `labels`.  The
claim's exclusion of consumed regions does not hold (see the
counterexample). -/
theorem c1_proposal_assembly (width height : ℕ) (raw : List RawRegion)
    (region_pop : Bool) (mrs border : ℤ) :
    (∀ (k : ℕ) (r : Region),
      (k, r) ∈ (ssRun width height raw region_pop mrs border).table →
      k ∉ (ssRun width height raw region_pop mrs border).pop →
      ({ rect := (r.min_x, r.min_y, r.max_x - r.min_x, r.max_y - r.min_y),
         bbox_size := r.bbox_size, size := r.size,
         labels := r.labels } : Proposal)
        ∈ (ssRun width height raw region_pop mrs border).proposals)
    ∧ (∀ p ∈ (ssRun width height raw region_pop mrs border).proposals,
        ∃ (k : ℕ) (r : Region),
          (k, r) ∈ (ssRun width height raw region_pop mrs border).table
          ∧ k ∉ (ssRun width height raw region_pop mrs border).pop
          ∧ p.rect = (r.min_x, r.min_y, r.max_x - r.min_x, r.max_y - r.min_y)
          ∧ p.bbox_size = r.bbox_size ∧ p.size = r.size
          ∧ p.labels = r.labels) := by
  have hprop : (ssRun width height raw region_pop mrs border).proposals
      = assemble (ssRun width height raw region_pop mrs border).pop
          (ssRun width height raw region_pop mrs border).table := rfl
  constructor
  · intro k r hk hp
    rw [hprop]
    exact mem_assemble hk hp
  · intro p hp
    rw [hprop] at hp
    obtain ⟨k, r, hkr, hkp, hpr⟩ := assemble_elim hp
    exact ⟨k, r, hkr, hkp, by rw [hpr]; rfl, by rw [hpr]; rfl,
      by rw [hpr]; rfl, by rw [hpr]; rfl⟩

/-- C1 witness: in the two-region run that merges once, the surviving
record of region `0` (consumed or not, it is in the table and not popped)
appears in the proposals with exactly the specified fields. -/
theorem c1_proposal_assembly_witness :
    ({ rect := ((expandRegion 0 10 10 ⟨0, 0, 2, 2, 1, [1], [1], [0], 4⟩).min_x,
        (expandRegion 0 10 10 ⟨0, 0, 2, 2, 1, [1], [1], [0], 4⟩).min_y,
        (expandRegion 0 10 10 ⟨0, 0, 2, 2, 1, [1], [1], [0], 4⟩).max_x
          - (expandRegion 0 10 10 ⟨0, 0, 2, 2, 1, [1], [1], [0], 4⟩).min_x,
        (expandRegion 0 10 10 ⟨0, 0, 2, 2, 1, [1], [1], [0], 4⟩).max_y
          - (expandRegion 0 10 10 ⟨0, 0, 2, 2, 1, [1], [1], [0], 4⟩).min_y),
       bbox_size := (expandRegion 0 10 10 ⟨0, 0, 2, 2, 1, [1], [1], [0], 4⟩).bbox_size,
       size := (expandRegion 0 10 10 ⟨0, 0, 2, 2, 1, [1], [1], [0], 4⟩).size,
       labels := (expandRegion 0 10 10 ⟨0, 0, 2, 2, 1, [1], [1], [0], 4⟩).labels }
      : Proposal)
      ∈ (ssRun 10 10 [⟨0, 0, 2, 2, 1, [1], [1], [0], 4⟩,
          ⟨1, 1, 3, 3, 1, [1], [1], [1], 4⟩] false 3000 0).proposals :=
  (c1_proposal_assembly 10 10 [⟨0, 0, 2, 2, 1, [1], [1], [0], 4⟩,
      ⟨1, 1, 3, 3, 1, [1], [1], [1], 4⟩] false 3000 0).1 0
    (expandRegion 0 10 10 ⟨0, 0, 2, 2, 1, [1], [1], [0], 4⟩)
    (by decide) (by decide)

/-- C1 counterexample: in the two-region run both initial regions `0` and
`1` are consumed by the single merge (`consumed = [0, 1]`), exactly one
table entry (the merged region `2`) is neither consumed nor popped, yet
the code emits THREE proposal records — so the proposal collection does
contain records for regions consumed as merge inputs, contradicting the
claim, which would force exactly one record here. -/
theorem c1_proposal_assembly_counterexample :
    (ssRun 10 10 [⟨0, 0, 2, 2, 1, [1], [1], [0], 4⟩,
        ⟨1, 1, 3, 3, 1, [1], [1], [1], 4⟩] false 3000 0).consumed = [0, 1]
    ∧ (ssRun 10 10 [⟨0, 0, 2, 2, 1, [1], [1], [0], 4⟩,
        ⟨1, 1, 3, 3, 1, [1], [1], [1], 4⟩] false 3000 0).proposals.length = 3
    ∧ ((ssRun 10 10 [⟨0, 0, 2, 2, 1, [1], [1], [0], 4⟩,
        ⟨1, 1, 3, 3, 1, [1], [1], [1], 4⟩] false 3000 0).table.filter
        (fun e =>
          !(decide (e.1 ∈ (ssRun 10 10 [⟨0, 0, 2, 2, 1, [1], [1], [0], 4⟩,
              ⟨1, 1, 3, 3, 1, [1], [1], [1], 4⟩] false 3000 0).consumed)
            || decide (e.1 ∈ (ssRun 10 10 [⟨0, 0, 2, 2, 1, [1], [1], [0], 4⟩,
              ⟨1, 1, 3, 3, 1, [1], [1], [1], 4⟩] false 3000 0).pop)))).length
      = 1 := by
  decide
